import Mathlib

/-!
Shallow embedding of the animation core of `src/generate.js`
(kanji stroke-order GIF generator).

The embedded pieces:
- the per-frame reveal loop of `generateGif` (lines 288-322): given the
  global progress and the ordered stroke lengths, which strokes are fully
  drawn, which single stroke is partially drawn (dash length), and which
  are undrawn;
- the timing model (lines 238-257): `animationDuration` for the
  `relative` / other timing modes and `totalFrames = ceil(dur/1000*fps)`;
- the global progress formula (lines 289-290) with its hold-phase clamp;
- the early return on an empty path list (line 227);
- the numeric flag value check of `parseArgs` (lines 46-50 etc.) and the
  `config.width || 200` defaulting of `processFile`;
- `preprocessSvg` (lines 157-168) modelled over `List Char`.

JavaScript numbers are modelled as `ℚ` (exact arithmetic; the claims under
study are about order/equality relations the float code realises the same
way on the inputs involved), counts as `ℕ`/`ℤ`.
-/

/-- Per-stroke reveal state in a single frame: the code either emits the
full path, a dash-truncated path (`stroke-dasharray="partLen len"`), or no
path at all for the stroke. -/
inductive StrokeReveal
  | undrawn
  | inProgress (partLen : ℚ)
  | full
deriving DecidableEq

/-- The inner loop of `generateGif` over `pathProps` (lines 309-322):
walk strokes in order with accumulator `drawnLength`; a stroke with
`drawnLength + p.length <= currentTotalProgress` is emitted fully; else if
`drawnLength < currentTotalProgress` it is emitted dash-truncated to
`currentTotalProgress - drawnLength` and the loop breaks; else the loop
breaks immediately. Strokes after the break are undrawn. -/
def revealLoop (progress : ℚ) : ℚ → List ℚ → List StrokeReveal
  | _, [] => []
  | drawn, l :: rest =>
    if drawn + l ≤ progress then
      StrokeReveal.full :: revealLoop progress (drawn + l) rest
    else if drawn < progress then
      StrokeReveal.inProgress (progress - drawn) :: rest.map (fun _ => StrokeReveal.undrawn)
    else
      StrokeReveal.undrawn :: rest.map (fun _ => StrokeReveal.undrawn)

/-- Reveal state of one frame, starting from `drawnLength = 0` (line 309). -/
def revealFrame (progress : ℚ) (lengths : List ℚ) : List StrokeReveal :=
  revealLoop progress 0 lengths

/-- The options of `generateGif` that the timing model reads:
`options.duration`, `options.fps`, `options.timing`. -/
structure GifOptions where
  duration : ℚ
  fps : ℕ
  timing : String

/-- Lines 238-254: `animationDuration = options.duration`, overwritten by
`baseTime + pathProps.length * timePerStroke` (500 + n*200) exactly when
`options.timing === 'relative'`. -/
def animationDuration (opts : GifOptions) (strokeCount : ℕ) : ℚ :=
  if opts.timing = "relative" then 500 + (strokeCount : ℚ) * 200 else opts.duration

/-- Line 257: `totalFrames = Math.ceil((animationDuration / 1000) * fps)`. -/
def totalFramesOf (opts : GifOptions) (strokeCount : ℕ) : ℤ :=
  Int.ceil (animationDuration opts strokeCount / 1000 * (opts.fps : ℚ))

/-- Lines 289-290: `currentTotalProgress = (frame / totalFrames) * totalLength`,
overwritten to `totalLength` when `frame >= totalFrames` (hold phase). -/
def globalProgress (frame : ℕ) (totalFrames : ℤ) (totalLength : ℚ) : ℚ :=
  if totalFrames ≤ (frame : ℤ) then totalLength
  else ((frame : ℚ) / (totalFrames : ℚ)) * totalLength

/-- Lines 286-288: the frame loop runs for
`frame = 0 .. totalFrames + endPauseFrames - 1` with `endPauseFrames = fps`,
computing each frame's reveal state from its global progress. -/
def gifFrames (lengths : List ℚ) (opts : GifOptions) : List (List StrokeReveal) :=
  (List.range (totalFramesOf opts lengths.length + (opts.fps : ℤ)).toNat).map
    (fun f => revealFrame (globalProgress f (totalFramesOf opts lengths.length) lengths.sum) lengths)

/-- `generateGif` as a whole, at the level the claims need: line 227
(`if (paths.length === 0) return;`) returns with no output — `none` — before
the encoder is even created; otherwise the timing plan and the full frame
sequence are produced. -/
def generateGifModel (lengths : List ℚ) (opts : GifOptions) :
    Option (ℤ × List (List StrokeReveal)) :=
  if lengths.isEmpty then none
  else some (totalFramesOf opts lengths.length, gifFrames lengths opts)

/-- `leadsWith n h` : `n` is an initial run of `h` (character-by-character). -/
def leadsWith : List Char → List Char → Bool
  | [], _ => true
  | _ :: _, [] => false
  | a :: as, b :: bs => if a = b then leadsWith as bs else false

/-- JS `hay.indexOf(needle)` restricted to found/not-found plus position:
first index at which `needle` starts in `hay`, if any. -/
def idxOf (n : List Char) : List Char → Option ℕ
  | [] => if n = [] then some 0 else none
  | b :: bs => if leadsWith n (b :: bs) then some 0 else (idxOf n bs).map (· + 1)

/-- JS `hay.includes(needle)` (as used on `'xmlns:kvg'`). -/
def hasSub (n hay : List Char) : Bool :=
  (idxOf n hay).isSome

/-- JS `hay.replace(needle, repl)` with a plain-string needle: replace the
first occurrence only (the replacement here contains no `$` patterns). -/
def replaceFirst (n r : List Char) : List Char → List Char
  | [] => if n = [] then r else []
  | b :: bs =>
    if leadsWith n (b :: bs) then r ++ (b :: bs).drop n.length
    else b :: replaceFirst n r bs

def svgTag : List Char := "<svg".toList

def kvgStr : List Char := "xmlns:kvg".toList

def injStr : List Char := "<svg xmlns:kvg=\"http://kanjivg.tagaini.net\"".toList

/-- Lines 158-162 of `preprocessSvg`: strip everything before the first
`<svg` — only when its index is strictly positive (JS `indexOf` returns -1
when absent, and `-1 > 0` is false, so an absent tag leaves the content
untouched). -/
def stripBefore (c : List Char) : List Char :=
  match idxOf svgTag c with
  | some i => if 0 < i then c.drop i else c
  | none => c

/-- Lines 163-166 of `preprocessSvg`: inject the kvg namespace into the
first `<svg` when `xmlns:kvg` is absent. -/
def injectKvg (c : List Char) : List Char :=
  if hasSub kvgStr c then c else replaceFirst svgTag injStr c

/-- Lines 157-168: `preprocessSvg` = strip before `<svg`, then inject the
kvg namespace. -/
def preprocessSvg (c : List Char) : List Char :=
  injectKvg (stripBefore c)

/-- `parseArgs` value check for `--width`/`--height`/`--duration`/`--fps`
(e.g. lines 46-50): the value is rejected (error + exit) iff it is missing,
empty, or starts with `-`. Returns `true` when the value is accepted. -/
def flagValueOk (v : Option String) : Bool :=
  match v with
  | none => false
  | some s => if s = "" then false else if leadsWith ['-'] s.toList then false else true

/-- JS `x || d` on a nullable integer config field, as in
`config.width || 200` (line 376): `null` and `0` both fall back to `d`. -/
def jsOr (w : Option ℤ) (d : ℤ) : ℤ :=
  match w with
  | none => d
  | some x => if x = 0 then d else x

-- ### Helper lemmas

theorem revealLoop_length (p : ℚ) (ls : List ℚ) (d : ℚ) :
    (revealLoop p d ls).length = ls.length := by
  induction ls generalizing d with
  | nil => rfl
  | cons l rest ih =>
    simp only [revealLoop]
    split
    · simpa using ih (d + l)
    · split <;> simp

theorem gifFrames_length (lengths : List ℚ) (opts : GifOptions)
    (h : 0 ≤ totalFramesOf opts lengths.length) :
    (gifFrames lengths opts).length = (totalFramesOf opts lengths.length).toNat + opts.fps := by
  unfold gifFrames
  rw [List.length_map, List.length_range, Int.toNat_add h (by positivity)]
  simp

/-- Claim C6: in relative timing mode the duration is `500 + N * 200`,
independent of the configured duration and of path lengths (the model, like
the code, never reads a length); N = 3 gives 1100. -/
theorem relative_timing_duration :
    (∀ (n : ℕ) (d : ℚ) (f : ℕ),
      animationDuration ⟨d, f, "relative"⟩ n = 500 + (n : ℚ) * 200)
    ∧ (∀ (n : ℕ) (d d' : ℚ) (f f' : ℕ),
      animationDuration ⟨d, f, "relative"⟩ n = animationDuration ⟨d', f', "relative"⟩ n)
    ∧ animationDuration ⟨2000, 20, "relative"⟩ 3 = 1100 := by
  refine ⟨fun n d f => rfl, fun n d d' f f' => rfl, ?_⟩
  show (500 : ℚ) + (3 : ℕ) * 200 = 1100
  norm_num

/-- Claim C7: in fixed timing mode the duration equals the configured
duration (default 2000) for every stroke count, and the frame count is
`ceil(duration / 1000 * fps)`. -/
theorem fixed_timing_duration :
    (∀ (n : ℕ) (d : ℚ) (f : ℕ), animationDuration ⟨d, f, "fixed"⟩ n = d)
    ∧ (∀ (n : ℕ) (f : ℕ), animationDuration ⟨2000, f, "fixed"⟩ n = 2000)
    ∧ (∀ (n : ℕ) (d : ℚ) (f : ℕ),
      totalFramesOf ⟨d, f, "fixed"⟩ n = Int.ceil (d / 1000 * (f : ℚ)))
    ∧ totalFramesOf ⟨2000, 20, "fixed"⟩ 3 = 40 := by
  refine ⟨fun n d f => rfl, fun n f => rfl, fun n d f => rfl, ?_⟩
  show Int.ceil ((2000 : ℚ) / 1000 * (20 : ℕ)) = 40
  norm_num

/-- Claim C1, counterexample: for the empty stroke set with the default GIF
options, `generateGif` returns before the encoder is created: no frame is
emitted and no output artifact is produced, contradicting the claimed
single blank frame / minimum-1 totalFrames. -/
theorem generateGif_empty_counterexample :
    generateGifModel [] ⟨2000, 20, "fixed"⟩ = none := rfl

/-- Claim C1, amended: for an empty stroke set the pipeline does not fail
and does not divide by zero, because it returns early (line 227) before the
timing plan and the encoder: no frame is emitted and no output artifact is
produced, under every option set. -/
theorem generateGif_empty_returns_none :
    ∀ opts : GifOptions, generateGifModel [] opts = none := fun _ => rfl

/-- All-undrawn check for the tail of a frame after the in-progress (or
first undrawn) stroke. -/
def tailUndrawn : List StrokeReveal → Bool
  | [] => true
  | StrokeReveal.undrawn :: t => tailUndrawn t
  | _ => false

/-- Shape of a legal frame: a run of fully drawn strokes, then at most one
in-progress stroke, then only undrawn strokes. -/
def orderedShape : List StrokeReveal → Bool
  | [] => true
  | StrokeReveal.full :: t => orderedShape t
  | StrokeReveal.inProgress _ :: t => tailUndrawn t
  | StrokeReveal.undrawn :: t => tailUndrawn t

theorem tailUndrawn_map (ls : List ℚ) :
    tailUndrawn (ls.map fun _ => StrokeReveal.undrawn) = true := by
  induction ls with
  | nil => rfl
  | cons l rest ih => simpa [tailUndrawn] using ih

theorem tailUndrawn_replicate (n : ℕ) :
    tailUndrawn (List.replicate n StrokeReveal.undrawn) = true := by
  induction n with
  | zero => rfl
  | succ m ih => simpa [List.replicate_succ, tailUndrawn] using ih

theorem orderedShape_revealLoop (p : ℚ) (ls : List ℚ) (d : ℚ) :
    orderedShape (revealLoop p d ls) = true := by
  induction ls generalizing d with
  | nil => rfl
  | cons l rest ih =>
    simp only [revealLoop]
    split
    · simpa [orderedShape] using ih (d + l)
    · split <;> simp [orderedShape, tailUndrawn_map, tailUndrawn_replicate]

/-- Claim C2: every frame's reveal state respects stroke order — the fully
drawn strokes form a prefix of the stroke order, at most one stroke is in
progress, and every stroke after it (or after the first undrawn stroke) is
undrawn; no stroke is ever drawn while an earlier-ordered one is undrawn. -/
theorem revealFrame_ordered_shape :
    ∀ (p : ℚ) (ls : List ℚ), orderedShape (revealFrame p ls) = true :=
  fun p ls => orderedShape_revealLoop p ls 0

theorem revealLoop_boundary_full (ls : List ℚ) :
    ∀ (d : ℚ) (k : ℕ), k ≤ ls.length → (∀ l ∈ ls, 0 ≤ l) →
    (revealLoop (d + (ls.take k).sum) d ls).take k = List.replicate k StrokeReveal.full := by
  induction ls with
  | nil =>
    intro d k hk _
    simp at hk
    subst hk
    simp
  | cons l rest ih =>
    intro d k hk hnn
    cases k with
    | zero => simp
    | succ j =>
      have hnn' : ∀ x ∈ rest, 0 ≤ x := fun x hx => hnn x (List.mem_cons_of_mem _ hx)
      have hs0 : 0 ≤ (rest.take j).sum :=
        List.sum_nonneg fun x hx => hnn' x (List.take_subset j rest hx)
      have hcond : d + l ≤ d + (((l :: rest).take (j + 1)).sum) := by
        simp only [List.take_succ_cons, List.sum_cons]
        linarith
      have harg : d + (((l :: rest).take (j + 1)).sum) = (d + l) + ((rest.take j).sum) := by
        simp only [List.take_succ_cons, List.sum_cons]
        ring
      have hk' : j ≤ rest.length := by
        simp only [List.length_cons] at hk
        omega
      simp only [revealLoop, if_pos hcond]
      rw [harg]
      simp only [List.take_succ_cons, List.replicate_succ]
      rw [ih (d + l) j hk' hnn']

theorem revealLoop_boundary_no_progress (ls : List ℚ) :
    ∀ (d : ℚ) (k : ℕ), (∀ l ∈ ls, 0 ≤ l) →
    ∀ s ∈ revealLoop (d + (ls.take k).sum) d ls, ∀ x : ℚ, s ≠ StrokeReveal.inProgress x := by
  induction ls with
  | nil =>
    intro d k _
    simp [revealLoop]
  | cons l rest ih =>
    intro d k hnn
    have hl : 0 ≤ l := hnn l (List.mem_cons_self l rest)
    have hnn' : ∀ x ∈ rest, 0 ≤ x := fun x hx => hnn x (List.mem_cons_of_mem _ hx)
    cases k with
    | zero =>
      simp only [List.take_zero, List.sum_nil, add_zero]
      rcases eq_or_lt_of_le hl with hl0 | hl0
      · have hcond : d + l ≤ d := by rw [← hl0, add_zero]
        simp only [revealLoop, if_pos hcond]
        intro s hs x
        rcases List.mem_cons.mp hs with h | h
        · subst h; simp
        · have hdl : d + l = d := by rw [← hl0, add_zero]
          rw [hdl] at h
          have ih0 := ih d 0 hnn'
          simp only [List.take_zero, List.sum_nil, add_zero] at ih0
          exact ih0 s h x
      · have hc1 : ¬ (d + l ≤ d) := by linarith
        have hc2 : ¬ (d < d) := lt_irrefl d
        simp only [revealLoop, if_neg hc1, if_neg hc2]
        intro s hs x
        rcases List.mem_cons.mp hs with h | h
        · subst h; simp
        · rcases List.mem_map.mp h with ⟨a, _, ha⟩
          rw [← ha]
          simp
    | succ j =>
      have hs0 : 0 ≤ (rest.take j).sum :=
        List.sum_nonneg fun x hx => hnn' x (List.take_subset j rest hx)
      have hcond : d + l ≤ d + (((l :: rest).take (j + 1)).sum) := by
        simp only [List.take_succ_cons, List.sum_cons]
        linarith
      simp only [revealLoop, if_pos hcond]
      intro s hs x
      rcases List.mem_cons.mp hs with h | h
      · subst h; simp
      · have harg : d + (((l :: rest).take (j + 1)).sum) = (d + l) + ((rest.take j).sum) := by
          simp only [List.take_succ_cons, List.sum_cons]
          ring
        rw [harg] at h
        exact ih (d + l) j hnn' s h x

theorem zip_map_undrawn (rest : List ℚ) :
    ∀ pr ∈ (rest.map fun _ => StrokeReveal.undrawn).zip rest, pr.1 = StrokeReveal.undrawn := by
  induction rest with
  | nil => simp
  | cons l t ih =>
    intro pr hpr
    simp only [List.map_cons, List.zip_cons_cons] at hpr
    rcases List.mem_cons.mp hpr with h | h
    · rw [h]
    · exact ih pr h

theorem revealLoop_inProgress_bounds (p : ℚ) (ls : List ℚ) :
    ∀ (d : ℚ), ∀ pr ∈ (revealLoop p d ls).zip ls, ∀ x : ℚ,
      pr.1 = StrokeReveal.inProgress x → 0 < x ∧ x < pr.2 := by
  induction ls with
  | nil =>
    intro d
    simp [revealLoop]
  | cons l rest ih =>
    intro d
    by_cases h1 : d + l ≤ p
    · simp only [revealLoop, if_pos h1, List.zip_cons_cons]
      intro pr hpr x hx
      rcases List.mem_cons.mp hpr with h | h
      · rw [h] at hx
        simp at hx
      · exact ih (d + l) pr h x hx
    · by_cases h2 : d < p
      · simp only [revealLoop, if_neg h1, if_pos h2, List.zip_cons_cons]
        intro pr hpr x hx
        rcases List.mem_cons.mp hpr with h | h
        · subst h
          show 0 < x ∧ x < l
          have hinj : StrokeReveal.inProgress (p - d) = StrokeReveal.inProgress x := hx
          injection hinj with hpd
          push_neg at h1
          exact ⟨by linarith, by linarith⟩
        · have hu : pr.1 = StrokeReveal.undrawn := zip_map_undrawn rest pr h
          rw [hu] at hx
          simp at hx
      · simp only [revealLoop, if_neg h1, if_neg h2, List.zip_cons_cons]
        intro pr hpr x hx
        rcases List.mem_cons.mp hpr with h | h
        · rw [h] at hx
          simp at hx
        · have hu : pr.1 = StrokeReveal.undrawn := zip_map_undrawn rest pr h
          rw [hu] at hx
          simp at hx

/-- Claim C4: if the global progress exactly equals the cumulative boundary
after the first `k` strokes, those `k` strokes are fully drawn and no stroke
at all is reported in progress; and in every frame an in-progress stroke's
dash length is strictly between `0` and the stroke length, so its fraction
is never exactly 0 or 1. -/
theorem revealFrame_boundary_tiebreak (ls : List ℚ) (k : ℕ)
    (hnn : ∀ l ∈ ls, 0 ≤ l) (hk : k ≤ ls.length) :
    (revealFrame ((ls.take k).sum) ls).take k = List.replicate k StrokeReveal.full
    ∧ (∀ s ∈ revealFrame ((ls.take k).sum) ls, ∀ x : ℚ, s ≠ StrokeReveal.inProgress x)
    ∧ (∀ (p : ℚ), ∀ pr ∈ (revealFrame p ls).zip ls, ∀ x : ℚ,
        pr.1 = StrokeReveal.inProgress x → 0 < x ∧ x < pr.2 ∧ 0 < x / pr.2 ∧ x / pr.2 < 1) := by
  refine ⟨?_, ?_, ?_⟩
  · have h := revealLoop_boundary_full ls 0 k hk hnn
    rw [zero_add] at h
    exact h
  · have h := revealLoop_boundary_no_progress ls 0 k hnn
    rw [zero_add] at h
    exact h
  · intro p pr hpr x hx
    have hb := revealLoop_inProgress_bounds p ls 0 pr hpr x hx
    have hpos : 0 < pr.2 := lt_trans hb.1 hb.2
    exact ⟨hb.1, hb.2, div_pos hb.1 hpos, (div_lt_one hpos).mpr hb.2⟩

/-- Witness for C4 at the spec's own example: lengths `[10, 20, 5]`,
boundary after stroke 1 (progress 10). -/
theorem revealFrame_boundary_tiebreak_witness :
    ((∀ l ∈ ([10, 20, 5] : List ℚ), 0 ≤ l) ∧ 1 ≤ ([10, 20, 5] : List ℚ).length)
    ∧ (revealFrame ((([10, 20, 5] : List ℚ).take 1).sum) [10, 20, 5]).take 1
        = List.replicate 1 StrokeReveal.full :=
  ⟨⟨by decide, by decide⟩, (revealFrame_boundary_tiebreak [10, 20, 5] 1 (by decide) (by decide)).1⟩

theorem revealLoop_inProgress_dist (p : ℚ) (ls : List ℚ) :
    ∀ (d : ℚ) (k : ℕ) (x : ℚ),
      (revealLoop p d ls)[k]? = some (StrokeReveal.inProgress x) →
      x = p - (d + (ls.take k).sum) := by
  induction ls with
  | nil =>
    intro d k x h
    simp [revealLoop] at h
  | cons l rest ih =>
    intro d k x h
    by_cases h1 : d + l ≤ p
    · simp only [revealLoop, if_pos h1] at h
      cases k with
      | zero => simp at h
      | succ j =>
        rw [List.getElem?_cons_succ] at h
        have hx := ih (d + l) j x h
        simp only [List.take_succ_cons, List.sum_cons]
        linarith [hx]
    · by_cases h2 : d < p
      · simp only [revealLoop, if_neg h1, if_pos h2] at h
        cases k with
        | zero =>
          rw [List.getElem?_cons_zero] at h
          simp only [Option.some.injEq, StrokeReveal.inProgress.injEq] at h
          simp only [List.take_zero, List.sum_nil, add_zero]
          linarith [h]
        | succ j =>
          rw [List.getElem?_cons_succ, List.getElem?_map] at h
          cases hj : rest[j]? with
          | none => rw [hj] at h; simp at h
          | some a => rw [hj] at h; simp at h
      · simp only [revealLoop, if_neg h1, if_neg h2] at h
        cases k with
        | zero => simp at h
        | succ j =>
          rw [List.getElem?_cons_succ, List.getElem?_map] at h
          cases hj : rest[j]? with
          | none => rw [hj] at h; simp at h
          | some a => rw [hj] at h; simp at h

theorem globalProgress_eq_min (frame : ℕ) (T : ℤ) (L : ℚ) (hT : 0 < T) :
    globalProgress frame T L = L * min ((frame : ℚ) / (T : ℚ)) 1 := by
  unfold globalProgress
  have hTq : (0 : ℚ) < (T : ℚ) := by exact_mod_cast hT
  by_cases h : T ≤ (frame : ℤ)
  · rw [if_pos h]
    have h1 : (1 : ℚ) ≤ (frame : ℚ) / (T : ℚ) := by
      rw [one_le_div hTq]
      exact_mod_cast h
    rw [min_eq_right h1, mul_one]
  · rw [if_neg h]
    push_neg at h
    have h1 : (frame : ℚ) / (T : ℚ) ≤ 1 := by
      rw [div_le_one hTq]
      exact_mod_cast le_of_lt h
    rw [min_eq_left h1, mul_comm]

/-- Claim C5: the progress allocator computes
`globalProgress = totalLength * min(frame / totalFrames, 1)` (for a
positive frame count); an in-progress stroke at position `k` is revealed to
dash length `globalProgress - cumulativeStart`, i.e. to fraction
`(globalProgress - cumulativeStart) / strokeLength`; and on the 3-stroke
glyph `[10, 20, 5]` at progress 15, stroke 1 is full, stroke 2 in progress
with dash length 5 (fraction 5/20 = 0.25), stroke 3 undrawn. -/
theorem progress_allocator_formula :
    (∀ (frame : ℕ) (T : ℤ) (L : ℚ), 0 < T →
      globalProgress frame T L = L * min ((frame : ℚ) / (T : ℚ)) 1)
    ∧ (∀ (p : ℚ) (ls : List ℚ) (k : ℕ) (x : ℚ),
      (revealFrame p ls)[k]? = some (StrokeReveal.inProgress x) →
      x = p - (ls.take k).sum)
    ∧ revealFrame 15 [10, 20, 5]
        = [StrokeReveal.full, StrokeReveal.inProgress 5, StrokeReveal.undrawn]
    ∧ (5 : ℚ) / 20 = 1 / 4 := by
  refine ⟨globalProgress_eq_min, ?_, by norm_num [revealFrame, revealLoop], by norm_num⟩
  intro p ls k x h
  have hx := revealLoop_inProgress_dist p ls 0 k x h
  rw [zero_add] at hx
  exact hx

/-- Witness for C5's progress formula at frame 10 of 40, total length 35. -/
theorem progress_allocator_formula_witness :
    (0 : ℤ) < 40
    ∧ globalProgress 10 40 35 = 35 * min (((10 : ℕ) : ℚ) / (((40 : ℤ)) : ℚ)) 1 :=
  ⟨by decide, progress_allocator_formula.1 10 40 35 (by decide)⟩

/-- "At least as drawn" on a single stroke's reveal state: undrawn is below
everything, an in-progress stroke is below any larger dash length and below
fully drawn, and fully drawn stays fully drawn. -/
inductive RevealLE : StrokeReveal → StrokeReveal → Prop
  | undrawn_le (s : StrokeReveal) : RevealLE StrokeReveal.undrawn s
  | inProgress_le {x y : ℚ} (h : x ≤ y) :
      RevealLE (StrokeReveal.inProgress x) (StrokeReveal.inProgress y)
  | inProgress_full (x : ℚ) : RevealLE (StrokeReveal.inProgress x) StrokeReveal.full
  | full_full : RevealLE StrokeReveal.full StrokeReveal.full

theorem map_undrawn_le_any (ls : List ℚ) :
    ∀ xs : List StrokeReveal, xs.length = ls.length →
      List.Forall₂ RevealLE (ls.map fun _ => StrokeReveal.undrawn) xs := by
  induction ls with
  | nil =>
    intro xs h
    rw [List.length_nil, List.length_eq_zero] at h
    subst h
    exact List.Forall₂.nil
  | cons l rest ih =>
    intro xs h
    cases xs with
    | nil => simp at h
    | cons a as =>
      simp only [List.length_cons] at h
      exact List.Forall₂.cons (RevealLE.undrawn_le a) (ih as (by omega))

theorem revealLoop_mono (p q : ℚ) (hpq : p ≤ q) (ls : List ℚ) :
    ∀ d : ℚ, List.Forall₂ RevealLE (revealLoop p d ls) (revealLoop q d ls) := by
  induction ls with
  | nil =>
    intro d
    simp [revealLoop]
  | cons l rest ih =>
    intro d
    by_cases h1 : d + l ≤ p
    · have h1' : d + l ≤ q := le_trans h1 hpq
      simp only [revealLoop, if_pos h1, if_pos h1']
      exact List.Forall₂.cons RevealLE.full_full (ih (d + l))
    · by_cases h2 : d < p
      · have h2' : d < q := lt_of_lt_of_le h2 hpq
        by_cases h1' : d + l ≤ q
        · simp only [revealLoop, if_neg h1, if_pos h2, if_pos h1']
          refine List.Forall₂.cons (RevealLE.inProgress_full _) ?_
          exact map_undrawn_le_any rest _ (by rw [revealLoop_length])
        · simp only [revealLoop, if_neg h1, if_neg h1', if_pos h2, if_pos h2']
          refine List.Forall₂.cons (RevealLE.inProgress_le (by linarith)) ?_
          exact map_undrawn_le_any rest _ (by rw [List.length_map])
      · have heq : revealLoop p d (l :: rest) = (l :: rest).map fun _ => StrokeReveal.undrawn := by
          simp only [revealLoop, if_neg h1, if_neg h2, List.map_cons]
        rw [heq]
        exact map_undrawn_le_any (l :: rest) _ (by rw [revealLoop_length])

theorem globalProgress_mono (T : ℤ) (L : ℚ) (hL : 0 ≤ L) (i j : ℕ) (hij : i ≤ j) :
    globalProgress i T L ≤ globalProgress j T L := by
  unfold globalProgress
  by_cases hi : T ≤ (i : ℤ)
  · rw [if_pos hi, if_pos (le_trans hi (by exact_mod_cast hij))]
  · rw [if_neg hi]
    push_neg at hi
    have hT0 : (0 : ℤ) < T := lt_of_le_of_lt (Int.natCast_nonneg i) hi
    have hTq : (0 : ℚ) < (T : ℚ) := by exact_mod_cast hT0
    have hfrac : (i : ℚ) / (T : ℚ) ≤ 1 := by
      rw [div_le_one hTq]
      exact_mod_cast le_of_lt hi
    by_cases hj : T ≤ (j : ℤ)
    · rw [if_pos hj]
      calc (i : ℚ) / (T : ℚ) * L ≤ 1 * L := mul_le_mul_of_nonneg_right hfrac hL
        _ = L := one_mul L
    · rw [if_neg hj]
      refine mul_le_mul_of_nonneg_right ?_ hL
      exact (div_le_div_iff_of_pos_right hTq).mpr (by exact_mod_cast hij)

/-- Claim C3: for non-negative stroke lengths and frame indices i ≤ j (in
particular i < j), the reveal state at j is pointwise at least as drawn as
at i: fully drawn strokes stay fully drawn and the in-progress dash length
(hence the revealed fraction of that stroke) never decreases — visible ink
never recedes. -/
theorem revealFrame_monotone (ls : List ℚ) (hnn : ∀ l ∈ ls, 0 ≤ l)
    (T : ℤ) (i j : ℕ) (hij : i < j) :
    List.Forall₂ RevealLE
      (revealFrame (globalProgress i T ls.sum) ls)
      (revealFrame (globalProgress j T ls.sum) ls) := by
  have hL : 0 ≤ ls.sum := List.sum_nonneg hnn
  exact revealLoop_mono _ _ (globalProgress_mono T ls.sum hL i j (le_of_lt hij)) ls 0

/-- Witness for C3: lengths `[10, 20, 5]`, 40 animation frames, frames
10 < 20. -/
theorem revealFrame_monotone_witness :
    ((∀ l ∈ ([10, 20, 5] : List ℚ), 0 ≤ l) ∧ 10 < 20)
    ∧ List.Forall₂ RevealLE
        (revealFrame (globalProgress 10 40 (([10, 20, 5] : List ℚ).sum)) [10, 20, 5])
        (revealFrame (globalProgress 20 40 (([10, 20, 5] : List ℚ).sum)) [10, 20, 5]) :=
  ⟨⟨by decide, by decide⟩, revealFrame_monotone [10, 20, 5] (by decide) 40 10 20 (by decide)⟩

theorem globalProgress_hold (f : ℕ) (T : ℤ) (L : ℚ) (h : T ≤ (f : ℤ)) :
    globalProgress f T L = L := by
  unfold globalProgress
  rw [if_pos h]

/-- Claim C8: exactly `fps` hold frames are appended after the `totalFrames`
animation frames, and every one of them is the fully drawn terminal state
(global progress = total length), identically. -/
theorem hold_frames_terminal (lengths : List ℚ) (opts : GifOptions)
    (h : 0 ≤ totalFramesOf opts lengths.length) :
    (gifFrames lengths opts).length = (totalFramesOf opts lengths.length).toNat + opts.fps
    ∧ (gifFrames lengths opts).drop (totalFramesOf opts lengths.length).toNat
      = List.replicate opts.fps (revealFrame lengths.sum lengths) := by
  refine ⟨gifFrames_length lengths opts h, ?_⟩
  unfold gifFrames
  rw [Int.toNat_add h (by positivity), Int.toNat_natCast]
  rw [List.range_add, List.map_append]
  rw [List.drop_left' (by rw [List.length_map, List.length_range])]
  rw [List.map_map, List.eq_replicate_iff]
  constructor
  · simp
  · intro b hb
    rcases List.mem_map.mp hb with ⟨a, ha, hba⟩
    have hTf : totalFramesOf opts lengths.length
        ≤ (((totalFramesOf opts lengths.length).toNat + a : ℕ) : ℤ) := by
      push_cast
      rw [Int.toNat_of_nonneg h]
      linarith [Int.natCast_nonneg a]
    rw [← hba]
    show revealFrame
        (globalProgress ((totalFramesOf opts lengths.length).toNat + a)
          (totalFramesOf opts lengths.length) lengths.sum) lengths
      = revealFrame lengths.sum lengths
    rw [globalProgress_hold _ _ _ hTf]

/-- Witness for C8: default fixed options (2000ms, 20fps) on lengths
`[10, 20, 5]`: 40 animation frames plus 20 hold frames. -/
theorem hold_frames_terminal_witness :
    0 ≤ totalFramesOf ⟨2000, 20, "fixed"⟩ (([10, 20, 5] : List ℚ).length)
    ∧ (gifFrames [10, 20, 5] ⟨2000, 20, "fixed"⟩).length
        = (totalFramesOf ⟨2000, 20, "fixed"⟩ (([10, 20, 5] : List ℚ).length)).toNat + 20 :=
  ⟨by
    simp only [totalFramesOf, animationDuration,
      if_neg (by decide : ¬("fixed" : String) = "relative")]
    norm_num,
    (hold_frames_terminal [10, 20, 5] ⟨2000, 20, "fixed"⟩
      (by
        simp only [totalFramesOf, animationDuration,
          if_neg (by decide : ¬("fixed" : String) = "relative")]
        norm_num)).1⟩

/-- Claim C9, counterexample: the configuration `fps = 0` (value string
`"0"`) passes the argument check, and an unknown timing mode (`"bogus"`)
is not rejected either: it is treated like fixed timing and a full
60-frame render is produced — the program does not fail fast with an
InvalidConfig error, frames are rendered and output is produced. -/
theorem invalid_config_counterexample :
    flagValueOk (some "0") = true
    ∧ animationDuration ⟨2000, 20, "bogus"⟩ 3 = 2000
    ∧ (gifFrames [10, 20, 5] ⟨2000, 20, "bogus"⟩).length = 60
    ∧ generateGifModel [10, 20, 5] ⟨2000, 20, "bogus"⟩ ≠ none := by
  have hne : ¬("bogus" : String) = "relative" := by decide
  have hT : totalFramesOf ⟨2000, 20, "bogus"⟩ (([10, 20, 5] : List ℚ).length) = 40 := by
    simp only [totalFramesOf, animationDuration, if_neg hne]
    norm_num
  refine ⟨by decide, ?_, ?_, ?_⟩
  · simp only [animationDuration, if_neg hne]
  · rw [gifFrames_length [10, 20, 5] ⟨2000, 20, "bogus"⟩ (by rw [hT]; norm_num), hT]
    decide
  · simp [generateGifModel]

/-- Claim C9, amended: `parseArgs` rejects the numeric flags' values only
when missing, empty, or starting with `-` (so negative values die at parse
time, with an error naming the flag); there is no InvalidConfig validation
beyond that: `fps = 0` is accepted, `width`/`height` `0` silently fall
back to the defaults through JS `||`, an unknown timing mode is treated
exactly like fixed timing, and rendering proceeds (here: a 60-frame render
under timing mode `"bogus"`). -/
theorem invalid_config_amended :
    flagValueOk none = false
    ∧ flagValueOk (some "") = false
    ∧ flagValueOk (some "-5") = false
    ∧ flagValueOk (some "0") = true
    ∧ (∀ (d : ℚ) (f n : ℕ), animationDuration ⟨d, (f : ℕ), "bogus"⟩ n = d)
    ∧ jsOr (some 0) 200 = 200
    ∧ (gifFrames [10, 20, 5] ⟨2000, 20, "bogus"⟩).length = 60 := by
  have hne : ¬("bogus" : String) = "relative" := by decide
  have hT : totalFramesOf ⟨2000, 20, "bogus"⟩ (([10, 20, 5] : List ℚ).length) = 40 := by
    simp only [totalFramesOf, animationDuration, if_neg hne]
    norm_num
  refine ⟨by decide, by decide, by decide, by decide, ?_, by decide, ?_⟩
  · intro d f n
    simp only [animationDuration, if_neg hne]
  · rw [gifFrames_length [10, 20, 5] ⟨2000, 20, "bogus"⟩ (by rw [hT]; norm_num), hT]
    decide

-- ### String lemmas for preprocessSvg

theorem leadsWith_nil_right (n : List Char) (h : leadsWith n [] = true) : n = [] := by
  cases n with
  | nil => rfl
  | cons a as => simp [leadsWith] at h

theorem leadsWith_append (n h ys : List Char) (hl : leadsWith n h = true) :
    leadsWith n (h ++ ys) = true := by
  induction n generalizing h with
  | nil => rfl
  | cons a as ih =>
    cases h with
    | nil => simp [leadsWith] at hl
    | cons b bs =>
      simp only [leadsWith, List.cons_append] at hl ⊢
      by_cases hab : a = b
      · rw [if_pos hab] at hl ⊢
        exact ih bs hl
      · rw [if_neg hab] at hl
        exact absurd hl (by simp)

theorem idxOf_nil_needle (hay : List Char) : idxOf [] hay = some 0 := by
  cases hay with
  | nil => rfl
  | cons b bs => rfl

theorem idxOf_of_leadsWith (n hay : List Char) (h : leadsWith n hay = true) :
    idxOf n hay = some 0 := by
  cases hay with
  | nil =>
    have hn : n = [] := leadsWith_nil_right n h
    subst hn
    rfl
  | cons b bs => simp [idxOf, h]

theorem leadsWith_of_idxOf_zero (n hay : List Char) (h : idxOf n hay = some 0) :
    leadsWith n hay = true := by
  cases hay with
  | nil =>
    by_cases hn : n = []
    · subst hn
      rfl
    · simp [idxOf, hn] at h
  | cons b bs =>
    by_cases hl : leadsWith n (b :: bs) = true
    · exact hl
    · exfalso
      simp only [idxOf, if_neg hl] at h
      cases hidx : idxOf n bs with
      | none => rw [hidx] at h; simp at h
      | some j => rw [hidx] at h; simp at h

theorem idxOf_drop (n : List Char) :
    ∀ (hay : List Char) (i : ℕ), idxOf n hay = some i → idxOf n (hay.drop i) = some 0 := by
  intro hay
  induction hay with
  | nil =>
    intro i h
    by_cases hn : n = []
    · subst hn
      rw [idxOf_nil_needle] at h
      injection h with h'
      subst h'
      rfl
    · simp [idxOf, hn] at h
  | cons b bs ih =>
    intro i h
    by_cases hl : leadsWith n (b :: bs) = true
    · have h0 : idxOf n (b :: bs) = some 0 := idxOf_of_leadsWith n _ hl
      rw [h0] at h
      have hi : i = 0 := by
        injection h with h'
        omega
      subst hi
      exact h0
    · simp only [idxOf, if_neg hl] at h
      cases hidx : idxOf n bs with
      | none => rw [hidx] at h; simp at h
      | some j =>
        rw [hidx] at h
        simp only [Option.map_some', Option.some.injEq] at h
        subst h
        rw [List.drop_succ_cons]
        exact ih j hidx

theorem replaceFirst_of_none (n r : List Char) :
    ∀ hay, idxOf n hay = none → replaceFirst n r hay = hay := by
  intro hay
  induction hay with
  | nil =>
    intro h
    by_cases hn : n = []
    · subst hn
      simp [idxOf] at h
    · simp [replaceFirst, hn]
  | cons b bs ih =>
    intro h
    by_cases hl : leadsWith n (b :: bs) = true
    · rw [idxOf_of_leadsWith n _ hl] at h
      simp at h
    · simp only [idxOf, if_neg hl] at h
      have hnone : idxOf n bs = none := by
        cases hidx : idxOf n bs with
        | none => rfl
        | some j => rw [hidx] at h; simp at h
      simp only [replaceFirst, if_neg hl]
      rw [ih hnone]

theorem replaceFirst_of_leadsWith (n r hay : List Char) (h : leadsWith n hay = true) :
    replaceFirst n r hay = r ++ hay.drop n.length := by
  cases hay with
  | nil =>
    have hn := leadsWith_nil_right n h
    subst hn
    simp [replaceFirst]
  | cons b bs => simp [replaceFirst, h]

theorem idxOf_append_isSome (n ys : List Char) :
    ∀ a, (idxOf n a).isSome = true → (idxOf n (a ++ ys)).isSome = true := by
  intro a
  induction a with
  | nil =>
    intro h
    by_cases hn : n = []
    · subst hn
      rw [List.nil_append, idxOf_nil_needle]
      rfl
    · simp [idxOf, hn] at h
  | cons b bs ih =>
    intro h
    by_cases hl : leadsWith n (b :: bs) = true
    · have hl2 : leadsWith n ((b :: bs) ++ ys) = true := leadsWith_append n (b :: bs) ys hl
      rw [List.cons_append] at hl2
      rw [List.cons_append]
      simp [idxOf, hl2]
    · rw [List.cons_append]
      simp only [idxOf, if_neg hl] at h
      by_cases hl2 : leadsWith n (b :: (bs ++ ys)) = true
      · simp [idxOf, hl2]
      · simp only [idxOf, if_neg hl2]
        have hbs : (idxOf n bs).isSome = true := by
          cases hidx : idxOf n bs with
          | none => rw [hidx] at h; simp at h
          | some j => rfl
        have hys := ih hbs
        cases hidx : idxOf n (bs ++ ys) with
        | none => rw [hidx] at hys; simp at hys
        | some j => rfl

theorem hasSub_append (n a ys : List Char) (h : hasSub n a = true) :
    hasSub n (a ++ ys) = true :=
  idxOf_append_isSome n ys a h

theorem stripBefore_idx (c : List Char) :
    idxOf svgTag (stripBefore c) = none ∨ idxOf svgTag (stripBefore c) = some 0 := by
  unfold stripBefore
  cases hidx : idxOf svgTag c with
  | none => exact Or.inl hidx
  | some i =>
    by_cases hi : 0 < i
    · refine Or.inr ?_
      show idxOf svgTag (if 0 < i then c.drop i else c) = some 0
      rw [if_pos hi]
      exact idxOf_drop svgTag c i hidx
    · have hi0 : i = 0 := by omega
      subst hi0
      refine Or.inr ?_
      show idxOf svgTag (if 0 < 0 then c.drop 0 else c) = some 0
      rw [if_neg hi]
      exact hidx

theorem stripBefore_of_trivial (c : List Char)
    (h : idxOf svgTag c = none ∨ idxOf svgTag c = some 0) :
    stripBefore c = c := by
  unfold stripBefore
  rcases h with h | h
  · rw [h]
  · rw [h]
    show (if 0 < 0 then c.drop 0 else c) = c
    rw [if_neg (lt_irrefl 0)]

theorem injectKvg_of_kvg (c : List Char) (h : hasSub kvgStr c = true) :
    injectKvg c = c := by
  unfold injectKvg
  rw [if_pos h]

theorem injectKvg_of_no_svg (c : List Char) (h : idxOf svgTag c = none) :
    injectKvg c = c := by
  unfold injectKvg
  by_cases hk : hasSub kvgStr c = true
  · rw [if_pos hk]
  · rw [if_neg hk, replaceFirst_of_none svgTag injStr c h]

theorem injectKvg_out (c : List Char)
    (h : idxOf svgTag c = none ∨ idxOf svgTag c = some 0) :
    idxOf svgTag (injectKvg c) = none
    ∨ (idxOf svgTag (injectKvg c) = some 0 ∧ hasSub kvgStr (injectKvg c) = true) := by
  by_cases hk : hasSub kvgStr c = true
  · rw [injectKvg_of_kvg c hk]
    rcases h with h | h
    · exact Or.inl h
    · exact Or.inr ⟨h, hk⟩
  · rcases h with h | h
    · rw [injectKvg_of_no_svg c h]
      exact Or.inl h
    · have hl : leadsWith svgTag c = true := leadsWith_of_idxOf_zero svgTag c h
      have hrw : injectKvg c = injStr ++ c.drop svgTag.length := by
        unfold injectKvg
        rw [if_neg hk, replaceFirst_of_leadsWith svgTag injStr c hl]
      rw [hrw]
      refine Or.inr ⟨?_, ?_⟩
      · exact idxOf_of_leadsWith svgTag _
          (leadsWith_append svgTag injStr _ (by decide))
      · exact hasSub_append kvgStr injStr _ (by decide)

/-- Claim C10: `preprocessSvg` is idempotent — after one application the
content either has no `<svg>` at all (and is left untouched again) or
starts at its first `<svg` and contains the kvg namespace, so the second
application neither strips nor injects. -/
theorem preprocessSvg_idempotent :
    ∀ c : List Char, preprocessSvg (preprocessSvg c) = preprocessSvg c := by
  intro c
  have hout := injectKvg_out (stripBefore c) (stripBefore_idx c)
  rcases hout with h | ⟨h0, hk⟩
  · show injectKvg (stripBefore (preprocessSvg c)) = preprocessSvg c
    rw [stripBefore_of_trivial (preprocessSvg c) (Or.inl h),
      injectKvg_of_no_svg (preprocessSvg c) h]
  · show injectKvg (stripBefore (preprocessSvg c)) = preprocessSvg c
    rw [stripBefore_of_trivial (preprocessSvg c) (Or.inr h0),
      injectKvg_of_kvg (preprocessSvg c) hk]
